import Mathlib

/-!
go-studies: a verification development

Shallow embedding of selected functions of the Go tour programs
(`1-first.go`, `2-flowcontrol.go`, `5-generics.go`, `7-extra.go`,
`8-extra-part-2.go`) together with theorems about them.

Conventions of the embedding:

* a Go slice is a Lean `List`; Go's `==` on a `comparable` type is the
  Boolean test `==` of an arbitrary `BEq` instance, of which nothing is
  assumed, not even that a value is `==` to itself;
* Go's `int` is a 64-bit two's complement integer: an `Int` together with
  `wrapInt` applied after every arithmetic operation;
* `panic` is an error result (`Except`), printed output is a list of lines.
-/

namespace GoStudies

/-! ## 5-generics.go : Index -/

/-- The loop `for i, v := range s` of `Index`, started at position `i`:
returns the position of the first `v == x`, and `-1` when the range is
exhausted. -/
def Index.loop {α : Type} [BEq α] (x : α) : List α → Nat → Int
  | [], _ => -1
  | v :: rest, i => if v == x then (i : Int) else Index.loop x rest (i + 1)

/-- Go: `func Index[T comparable](s []T, x T) int`. -/
def Index {α : Type} [BEq α] (s : List α) (x : α) : Int :=
  Index.loop x s 0

/-! ## Go's `int` -/

/-- Smallest value of Go's 64-bit `int`. -/
def minInt : Int := -9223372036854775808

/-- Largest value of Go's 64-bit `int`. -/
def maxInt : Int := 9223372036854775807

/-- Two's complement wrap-around of a mathematical integer into the range
of Go's `int`. -/
def wrapInt (n : Int) : Int :=
  (n + 9223372036854775808) % 18446744073709551616 - 9223372036854775808

/-- Go's `a + b` on `int`. -/
def intAdd (a b : Int) : Int := wrapInt (a + b)

/-- Go's `a - b` on `int`. -/
def intSub (a b : Int) : Int := wrapInt (a - b)

/-- Go's `a * b` on `int`. -/
def intMul (a b : Int) : Int := wrapInt (a * b)

/-- Go's `a / b` on `int` for a non-zero divisor: the quotient is truncated
towards zero. -/
def intDiv (a b : Int) : Int := wrapInt (Int.tdiv a b)

/-! ## 1-first.go : split -/

/-- Go: `func split(sum int) (x, y int)` with its naked `return` of the
named results `x` and `y`. -/
def split (sum : Int) : Int × Int :=
  let x := intDiv (intMul sum 4) 9
  let y := intSub sum x
  (x, y)

/-! ## 7-extra.go : ServerState -/

/-- Go: `type ServerState int`. -/
structure ServerState where
  val : Int
  deriving DecidableEq, Repr

/-- Go: `StateIdle ServerState = iota`. -/
def StateIdle : ServerState := ⟨0⟩

/-- Go: `StateConnected`, the second constant of the `iota` block. -/
def StateConnected : ServerState := ⟨1⟩

/-- Go: `StateError`, the third constant of the `iota` block. -/
def StateError : ServerState := ⟨2⟩

/-- Go: `StateRetrying`, the fourth constant of the `iota` block. -/
def StateRetrying : ServerState := ⟨3⟩

/-- The four declared values of the enum, in declaration order. -/
def declaredStates : List ServerState :=
  [StateIdle, StateConnected, StateError, StateRetrying]

/-- Go: `var stateName = map[ServerState]string{...}`, as an association
list of its four entries. -/
def stateName : List (ServerState × String) :=
  [(StateIdle, "idle"), (StateConnected, "connected"),
   (StateError, "error"), (StateRetrying, "retrying")]

/-- Go: `func (ss ServerState) String() string { return stateName[ss] }`.
Indexing a map with an absent key yields the zero value `""`. -/
def ServerState.String (ss : ServerState) : String :=
  (stateName.lookup ss).getD ""

/-- Go: `func transition(s ServerState) ServerState`. The `default` branch
panics with `fmt.Errorf("unknown state: %s", s)`; the panic is the error
result, carrying the formatted message. -/
def transition (s : ServerState) : Except String ServerState :=
  if s = StateIdle then
    .ok StateConnected
  else if s = StateConnected ∨ s = StateRetrying then
    .ok StateIdle
  else if s = StateError then
    .ok StateError
  else
    .error ("unknown state: " ++ ServerState.String s)

/-- The result of `n` successive applications of `transition`, starting
from `s`; a panic of any application is the result. -/
def transitionIter : Nat → ServerState → Except String ServerState
  | 0, s => .ok s
  | n + 1, s => transition s >>= transitionIter n

/-! ## 7-extra.go : custom errors -/

/-- Go: `type argError struct { arg int; message string }`. -/
structure argError where
  arg : Int
  message : String
  deriving DecidableEq, Repr

/-- Go: `func (e *argError) Error() string`, that is
`fmt.Sprintf("%d - %s", e.arg, e.message)`. -/
def argError.Error (e : argError) : String :=
  toString e.arg ++ " - " ++ e.message

/-- Go: `func f(arg int) (int, error)`. The `error` result is `none` for
`nil` and `some e` for the pointer to the `argError` value `e`. -/
def f (arg : Int) : Int × Option argError :=
  if arg = 42 then
    (-1, some ⟨arg, "can't work with it"⟩)
  else
    (intAdd arg 3, none)

/-! ## 7-extra.go : the singly linked list -/

/-- A Go slice value of element type `T`: the `nil` slice, or a slice with
the given elements. -/
inductive Slice (T : Type) where
  | nil : Slice T
  | mk (elems : List T) : Slice T
  deriving DecidableEq, Repr

/-- The elements of a slice; the `nil` slice has none. -/
def Slice.toList {T : Type} : Slice T → List T
  | .nil => []
  | .mk elems => elems

/-- Go: `append(s, v)`; the result is never `nil`. -/
def Slice.append {T : Type} (s : Slice T) (v : T) : Slice T :=
  .mk (s.toList ++ [v])

/-- Go: `type element[T any] struct { next *element[T]; val T }`. A pointer
is `none` for `nil` and `some a` for the address `a` of a heap cell. -/
structure element (T : Type) where
  next : Option Nat
  val : T

/-- The heap of `element` cells; the address of a cell is its position. -/
abbrev Heap (T : Type) := List (element T)

/-- Go: `type List[T any] struct { head, tail *element[T] }`. -/
structure GoList where
  head : Option Nat
  tail : Option Nat
  deriving DecidableEq, Repr

/-- Go: `&element[T]` with only `val` given, a fresh cell with a `nil` `next`; returns
the new heap and the address of the cell. -/
def Heap.alloc {T : Type} (h : Heap T) (v : T) : Heap T × Nat :=
  (h ++ [⟨none, v⟩], h.length)

/-- Reading the cell at address `p`. -/
def Heap.load {T : Type} (h : Heap T) (p : Nat) : Option (element T) :=
  h[p]?

/-- Writing the cell at address `p`. -/
def Heap.store {T : Type} (h : Heap T) (p : Nat) (e : element T) : Option (Heap T) :=
  if p < h.length then some (h.set p e) else none

/-- Go: `func (lst *List[T]) Push(v T)`. The result is `none` if a pointer
that is dereferenced does not point into the heap. -/
def GoList.Push {T : Type} (lst : GoList) (h : Heap T) (v : T) : Option (Heap T × GoList) :=
  match lst.tail with
  | none =>
    -- lst.head = new cell; lst.tail = lst.head
    let (h1, a) := h.alloc v
    let lst1 : GoList := { lst with head := some a }
    some (h1, { lst1 with tail := lst1.head })
  | some t =>
    -- lst.tail.next = new cell; lst.tail = lst.tail.next
    let (h1, a) := h.alloc v
    do
      let e ← h1.load t
      let h2 ← h1.store t { e with next := some a }
      let e2 ← h2.load t
      some (h2, { lst with tail := e2.next })

/-- The loop `for e := lst.head; e != nil; e = e.next` of `AllElements`,
with at most `fuel` iterations; `none` when the fuel is exhausted before
`e` is `nil`. -/
def GoList.AllElements.loop {T : Type} (h : Heap T) : Nat → Option Nat → Slice T → Option (Slice T)
  | _, none, elems => some elems
  | 0, some _, _ => none
  | fuel + 1, some p, elems =>
    match h.load p with
    | none => none
    | some e => GoList.AllElements.loop h fuel e.next (elems.append e.val)

/-- Go: `func (lst *List[T]) AllElements() []T`, starting from
`var elems []T`, the `nil` slice. -/
def GoList.AllElements {T : Type} (fuel : Nat) (lst : GoList) (h : Heap T) : Option (Slice T) :=
  GoList.AllElements.loop h fuel lst.head Slice.nil

/-- Successive calls `lst.Push(v)` for the values of `vs`, in order. -/
def GoList.pushAll {T : Type} : List T → Heap T × GoList → Option (Heap T × GoList)
  | [], st => some st
  | v :: vs, st =>
    match st.2.Push st.1 v with
    | none => none
    | some st1 => GoList.pushAll vs st1

/-- The initially empty list, the zero value of `List[T]`: both pointers `nil`. -/
def GoList.empty : GoList := ⟨none, none⟩


/-- The heap `h` holds, from address `b` on, the cells of a list with the
values `vs`, and `lst` points at its first and last cell. -/
structure Represents {T : Type} (h : Heap T) (lst : GoList) (b : Nat) (vs : List T) : Prop where
  len : h.length = b + vs.length
  cells : ∀ (k : Nat) (v : T), vs[k]? = some v →
    h[b + k]? = some ⟨if k + 1 < vs.length then some (b + k + 1) else none, v⟩
  head : lst.head = if vs.length = 0 then none else some b
  tail : lst.tail = if vs.length = 0 then none else some (b + vs.length - 1)

/-! ## defer, panic and recover -/

/-- What a program has written to standard output: the strings written, in
order. -/
abbrev Output := List String

/-- The text written by `fmt.Println(args...)`: the operands separated by
spaces, followed by a newline. -/
def Println (args : List String) : String :=
  " ".intercalate args ++ "\n"

/-- The state a deferred call runs in, after the surrounding function has
returned or panicked: the output so far and the value of the panic in
progress, if any. -/
structure Unwind where
  out : Output
  panicking : Option String

/-- A deferred call, its arguments already evaluated. -/
abbrev Deferred := Unwind → Unwind

/-- The state of a running function body: the output so far and the stack
of deferred calls, the most recently deferred first. -/
structure Frame where
  out : Output
  defers : List Deferred

/-- A function body: it runs on a frame and either completes with a result
or panics with a value, leaving a frame. -/
def Body (α : Type) : Type := Frame → Except String α × Frame

/-- Sequencing of statements: the next statement runs on the frame left by
the previous one, unless that one panicked. -/
def Body.bind {α β : Type} (m : Body α) (g : α → Body β) : Body β :=
  fun fr =>
    match m fr with
    | (.ok a, fr1) => g a fr1
    | (.error e, fr1) => (.error e, fr1)

instance : Monad Body where
  pure a := fun fr => (.ok a, fr)
  bind := Body.bind

/-- Go: `fmt.Println(args...)` as a statement of a body. -/
def Body.println (args : List String) : Body Unit :=
  fun fr => (.ok (), { fr with out := fr.out ++ [Println args] })

/-- Go: `defer d`: pushes the call on the stack of deferred calls. -/
def Body.defer (d : Deferred) : Body Unit :=
  fun fr => (.ok (), { fr with defers := d :: fr.defers })

/-- Go: `panic(v)`. -/
def Body.panic {α : Type} (v : String) : Body α :=
  fun fr => (.error v, fr)

/-- Go: `fmt.Println(args...)` as a deferred call. -/
def Deferred.println (args : List String) : Deferred :=
  fun u => { u with out := u.out ++ [Println args] }

/-- Go: `recover()` called by a deferred function: returns the value of the
panic in progress (`none` for `nil`) and stops the panic. -/
def recover (u : Unwind) : Option String × Unwind :=
  (u.panicking, { u with panicking := none })

/-- A call of a function with the given body, on the output so far: the
body runs on a fresh frame; when it has completed or panicked the deferred
calls run in last-in-first-out order; the call panics if a panic is still in
progress after them. -/
def call (body : Body Unit) (out : Output) : Except String Unit × Output :=
  let (r, fr) := body { out := out, defers := [] }
  let u0 : Unwind :=
    { out := fr.out, panicking := match r with | .ok _ => none | .error v => some v }
  let u := fr.defers.foldl (fun u d => d u) u0
  (match u.panicking with | none => .ok () | some v => .error v, u.out)

/-- A call of another function as a statement of a body: a panic of the
callee is a panic of the caller. -/
def Body.invoke (fn : Output → Except String Unit × Output) : Body Unit :=
  fun fr => let (r, out) := fn fr.out; (r, { fr with out := out })

/-! ## 8-extra-part-2.go : tryRecover -/

/-- Go: `func mayPanic() { panic("a problem") }`. -/
def mayPanic : Output → Except String Unit × Output :=
  call (Body.panic "a problem")

/-- The deferred closure of `tryRecover`:
`if r := recover(); r != nil { fmt.Println("Recovered. Error:\n", r) }`. -/
def tryRecover.deferred : Deferred := fun u =>
  let (r, u1) := recover u
  match r with
  | some v => Deferred.println ["Recovered. Error:\n", v] u1
  | none => u1

/-- The body of `tryRecover`. -/
def tryRecover.body : Body Unit := do
  Body.defer tryRecover.deferred
  Body.invoke mayPanic
  Body.println ["After mayPanic()"]

/-- Go: `func tryRecover()`. -/
def tryRecover : Output → Except String Unit × Output :=
  call tryRecover.body

/-! ## 2-flowcontrol.go : main -/

/-- The loop `for i := 0; i < 10; i++ { defer fmt.Println(i) }` of `main`,
from the value `i` of the loop variable on. -/
def main.loop (i : Int) : Body Unit :=
  if i < 10 then do
    Body.defer (Deferred.println [toString i])
    main.loop (intAdd i 1)
  else
    pure ()
termination_by (10 - i).toNat
decreasing_by
  simp only [intAdd, wrapInt]
  omega

/-- The statements of `main` from `defer fmt.Println("world")` to its
end. -/
def main.body : Body Unit := do
  Body.defer (Deferred.println ["world"])
  Body.println ["hello"]
  Body.println ["counting"]
  main.loop 0
  Body.println ["done"]

/-- The run of `main` from `defer fmt.Println("world")` on, `out` being
what the earlier statements of `main` have written. -/
def main (out : Output) : Except String Unit × Output :=
  call main.body out

/-! ## 7-extra.go : tryAtomicCounters -/

/-- Go: `ops.Add(1)` on an `atomic.Uint64`: addition modulo `2^64`, in one
indivisible step. -/
def uint64Add (a b : Nat) : Nat := (a + b) % 18446744073709551616

/-- Where the function `tryAtomicCounters` itself is: at the head of the
loop `for range 50` after `i` rounds, between `wg.Add(1)` and the `go`
statement of round `i`, in `wg.Wait()`, at `ops.Load()`, or returned. -/
inductive MainPc where
  | loop (i : Nat) : MainPc
  | spawn (i : Nat) : MainPc
  | wait : MainPc
  | load : MainPc
  | done : MainPc
  deriving DecidableEq, Repr

/-- A goroutine started by the `go` statement: the number of rounds of its
loop `for range 1000` it has completed, and whether it has called
`wg.Done()` and returned. -/
structure Worker where
  iter : Nat
  exited : Bool
  deriving DecidableEq, Repr

/-- The state of a run of `tryAtomicCounters`: the value of the counter
`ops`, the counter of the wait group `wg`, the position of the function
itself, the goroutines started so far, the value printed by
`fmt.Println("ops:", ops.Load())`, and whether the program has panicked. -/
structure World where
  ops : Nat
  wg : Int
  pc : MainPc
  workers : List Worker
  printed : Option Nat
  panicked : Bool
  deriving DecidableEq, Repr

/-- The state in which `tryAtomicCounters` starts: `var ops atomic.Uint64`
and `var wg sync.WaitGroup` are zero and no goroutine has been started. -/
def tryAtomicCounters.init : World :=
  { ops := 0, wg := 0, pc := .loop 0, workers := [], printed := none, panicked := false }

/-- One step of the function `tryAtomicCounters` itself. In `wg.Wait()` it
is blocked, and the state unchanged, until the counter of `wg` is zero. -/
def tryAtomicCounters.stepMain (w : World) : World :=
  match w.pc with
  | .loop i =>
    if i < 50 then { w with wg := w.wg + 1, pc := .spawn i }
    else { w with pc := .wait }
  | .spawn i => { w with workers := w.workers ++ [⟨0, false⟩], pc := .loop (i + 1) }
  | .wait => if w.wg = 0 then { w with pc := .load } else w
  | .load => { w with printed := some w.ops, pc := .done }
  | .done => w

/-- One step of the goroutine number `k`: one `ops.Add(1)` while fewer than
1000 rounds are completed, then `wg.Done()`, which panics if the counter of
`wg` would become negative. A goroutine that is not started or has returned
leaves the state unchanged. -/
def tryAtomicCounters.stepWorker (k : Nat) (w : World) : World :=
  match w.workers[k]? with
  | none => w
  | some g =>
    if g.exited then w
    else if g.iter < 1000 then
      { w with ops := uint64Add w.ops 1,
               workers := w.workers.set k { g with iter := g.iter + 1 } }
    else if w.wg - 1 < 0 then { w with panicked := true }
    else { w with wg := w.wg - 1, workers := w.workers.set k { g with exited := true } }

/-- One step of the program, taken by the thread the scheduler picks:
`0` is the function `tryAtomicCounters` itself and `k + 1` the goroutine
number `k`. After a panic nothing runs. -/
def tryAtomicCounters.step (tid : Nat) (w : World) : World :=
  if w.panicked then w
  else
    match tid with
    | 0 => tryAtomicCounters.stepMain w
    | k + 1 => tryAtomicCounters.stepWorker k w

/-- The run of the program from the state `w` under the interleaving
`sched`, the list of the threads picked by the scheduler, in order. -/
def tryAtomicCounters.run (sched : List Nat) (w : World) : World :=
  sched.foldl (fun w tid => tryAtomicCounters.step tid w) w

/-- Go: `func tryAtomicCounters()`, run under the interleaving `sched`. -/
def tryAtomicCounters (sched : List Nat) : World :=
  tryAtomicCounters.run sched tryAtomicCounters.init

/-- The sum of the rounds completed by the goroutines. -/
def Worker.total (ws : List Worker) : Nat := (ws.map Worker.iter).sum

/-- The number of goroutines that have not returned. -/
def Worker.live (ws : List Worker) : Nat :=
  (ws.map fun g => if g.exited then 0 else 1).sum

/-- The invariant of the run, as far as it depends on the position of the
function `tryAtomicCounters` itself. -/
def tryAtomicCounters.PcInv (w : World) : Prop :=
  match w.pc with
  | .loop i =>
    i ≤ 50 ∧ w.workers.length = i ∧ w.wg = (Worker.live w.workers : Int) ∧ w.printed = none
  | .spawn i =>
    i < 50 ∧ w.workers.length = i ∧ w.wg = (Worker.live w.workers : Int) + 1 ∧ w.printed = none
  | .wait =>
    w.workers.length = 50 ∧ w.wg = (Worker.live w.workers : Int) ∧ w.printed = none
  | .load =>
    w.workers.length = 50 ∧ w.wg = 0 ∧ Worker.live w.workers = 0 ∧ w.printed = none
  | .done =>
    w.workers.length = 50 ∧ w.wg = 0 ∧ Worker.live w.workers = 0 ∧ w.printed = some 50000

/-- The invariant of every state reached by `tryAtomicCounters`. -/
structure tryAtomicCounters.Inv (w : World) : Prop where
  noPanic : w.panicked = false
  rounds : ∀ g ∈ w.workers, g.iter ≤ 1000 ∧ (g.exited = true → g.iter = 1000)
  count : w.ops = Worker.total w.workers
  atMost : w.workers.length ≤ 50
  atPc : tryAtomicCounters.PcInv w

/-- The steps the function `tryAtomicCounters` itself still has to take,
together with those of the goroutines it has not started yet. -/
def tryAtomicCounters.mainRemaining : MainPc → Nat
  | .loop i => (50 - i) * 1003 + 3
  | .spawn i => (50 - i) * 1003 + 2
  | .wait => 2
  | .load => 1
  | .done => 0

/-- The steps a started goroutine still has to take. -/
def Worker.remaining (g : Worker) : Nat :=
  (1000 - g.iter) + if g.exited then 0 else 1

/-- The number of steps that are left until `tryAtomicCounters` has
returned. -/
def tryAtomicCounters.remaining (w : World) : Nat :=
  tryAtomicCounters.mainRemaining w.pc + (w.workers.map Worker.remaining).sum

/-! ## 4-methods.go : method sets and the interface Abser -/

/-- The receiver of a method declaration: a value receiver `(v T)` or a
pointer receiver `(v *T)`. -/
inductive Receiver where
  | value : Receiver
  | pointer : Receiver
  deriving DecidableEq, Repr

/-- A method of a method set or of an interface: its name and its
signature. -/
structure Method where
  name : String
  signature : String
  deriving DecidableEq, Repr

/-- A method declaration `func (v T) m(...) ...` or `func (v *T) m(...) ...`:
the base type `T` of the receiver, the kind of receiver and the method. -/
structure MethodDecl where
  base : String
  receiver : Receiver
  method : Method
  deriving DecidableEq, Repr

/-- The method declarations of `4-methods.go`, in source order:
`func (v Vertex) Abs() float64`, `func (f MyFloat) Abs() float64`,
`func (v *Vertex) Scale(f float64)` and `func (e *MyError) Error() string`. -/
def methodDecls : List MethodDecl :=
  [⟨"Vertex", .value, ⟨"Abs", "() float64"⟩⟩,
   ⟨"MyFloat", .value, ⟨"Abs", "() float64"⟩⟩,
   ⟨"Vertex", .pointer, ⟨"Scale", "(float64)"⟩⟩,
   ⟨"MyError", .pointer, ⟨"Error", "() string"⟩⟩]

/-- The static type of an operand: a defined type `T` or the pointer type
`*T`. -/
inductive GoType where
  | named (base : String) : GoType
  | ptr (base : String) : GoType
  deriving DecidableEq, Repr

/-- The method set of a type: for `T` the methods declared with receiver
`T`; for `*T` the methods declared with receiver `T` or `*T`. -/
def methodSet (decls : List MethodDecl) : GoType → List Method
  | .named base =>
    (decls.filter fun d => d.base = base ∧ d.receiver = .value).map MethodDecl.method
  | .ptr base =>
    (decls.filter fun d => d.base = base).map MethodDecl.method

/-- Go: `type Abser interface { Abs() float64 }`, as the list of its
methods. -/
def Abser : List Method := [⟨"Abs", "() float64"⟩]

/-- The interface `error` of the language: `Error() string`. -/
def errorInterface : List Method := [⟨"Error", "() string"⟩]

/-- A type implements an interface if its method set holds every method of
the interface; a value of the type is then assignable to a variable of the
interface type. -/
def implements (decls : List MethodDecl) (t : GoType) (iface : List Method) : Bool :=
  iface.all fun m => decide (m ∈ methodSet decls t)

/-! ## Lemmas on Index -/

theorem Index.loop_cases {α : Type} [BEq α] (x : α) (s : List α) (k : Nat) :
    (Index.loop x s k = -1 ∧ ∀ v ∈ s, (v == x) = false) ∨
    (∃ (j : Nat) (v : α), Index.loop x s k = ((k + j : Nat) : Int) ∧ j < s.length ∧
      s[j]? = some v ∧ (v == x) = true ∧
      ∀ (m : Nat) (u : α), m < j → s[m]? = some u → (u == x) = false) := by
  induction s generalizing k with
  | nil => left; simp [Index.loop]
  | cons a rest ih =>
    by_cases ha : (a == x) = true
    · right
      refine ⟨0, a, ?_, by simp, by simp, ha, ?_⟩
      · simp [Index.loop, ha]
      · intro m u hm; omega
    · have haf : (a == x) = false := by simpa using ha
      rcases ih (k + 1) with ⟨h1, h2⟩ | ⟨j, v, h1, h2, h3, h4, h5⟩
      · left
        refine ⟨?_, ?_⟩
        · simp [Index.loop, haf, h1]
        · intro u hu
          rcases List.mem_cons.mp hu with rfl | hu
          · exact haf
          · exact h2 u hu
      · right
        refine ⟨j + 1, v, ?_, by simpa using h2, by simpa using h3, h4, ?_⟩
        · simp only [Index.loop, haf, Bool.false_eq_true, if_false, h1]
          congr 1; omega
        · intro m u hm hu
          cases m with
          | zero =>
            simp only [List.getElem?_cons_zero, Option.some.injEq] at hu
            subst hu
            exact haf
          | succ m => exact h5 m u (by omega) (by simpa using hu)

/-! ## Lemmas on the linked list -/

theorem Represents.empty {T : Type} (h : Heap T) :
    Represents h GoList.empty h.length ([] : List T) :=
  ⟨by simp, by simp, by simp [GoList.empty], by simp [GoList.empty]⟩

theorem Represents.push {T : Type} {h : Heap T} {lst : GoList} {b : Nat} {vs : List T}
    (hr : Represents h lst b vs) (v : T) :
    ∃ h1 lst1, lst.Push h v = some (h1, lst1) ∧ Represents h1 lst1 b (vs ++ [v]) := by
  obtain ⟨hlen, hcells, hhead, htail⟩ := hr
  by_cases hvs : vs.length = 0
  · have hnil : vs = [] := List.length_eq_zero.mp hvs
    subst hnil
    simp only [List.length_nil, if_true] at htail hhead
    simp only [List.length_nil, Nat.add_zero] at hlen
    refine ⟨h ++ [(⟨none, v⟩ : element T)], ⟨some h.length, some h.length⟩, ?_, ?_⟩
    · simp [GoList.Push, htail, Heap.alloc]
    · refine ⟨by simp [hlen], ?_, by simp [hlen], by simp [hlen]⟩
      intro k w hk
      cases k with
      | zero =>
        simp only [List.nil_append, List.getElem?_cons_zero, Option.some.injEq] at hk
        subst hk
        simp [← hlen]
      | succ k => simp at hk
  · simp only [hvs, if_false] at htail hhead
    have hpos : 0 < vs.length := Nat.pos_of_ne_zero hvs
    obtain ⟨w, hw⟩ : ∃ w, vs[vs.length - 1]? = some w :=
      ⟨vs[vs.length - 1], List.getElem?_eq_getElem (by omega)⟩
    have hlast := hcells _ _ hw
    have hlt : ¬ (vs.length - 1 + 1 < vs.length) := by omega
    simp only [hlt, if_false] at hlast
    have hidx : b + (vs.length - 1) = b + vs.length - 1 := by omega
    rw [hidx] at hlast
    have hin : b + vs.length - 1 < h.length := by omega
    refine ⟨(h ++ [(⟨none, v⟩ : element T)]).set (b + vs.length - 1) ⟨some h.length, w⟩,
      ⟨lst.head, some h.length⟩, ?_, ?_⟩
    · have e1 : (h ++ [(⟨none, v⟩ : element T)])[b + vs.length - 1]? = some ⟨none, w⟩ := by
        rw [List.getElem?_append_left hin]; exact hlast
      have hin1 : b + vs.length - 1 < h.length + 1 := by omega
      simp [GoList.Push, htail, Heap.alloc, Heap.load, Heap.store, e1, List.getElem?_set, hin1]
    · refine ⟨by simp [hlen]; omega, ?_, by simp [hhead], by simp [hlen]⟩
      intro k u hk
      rw [List.getElem?_set]
      by_cases hk1 : k = vs.length
      · subst hk1
        have : ¬ (b + vs.length - 1 = b + vs.length) := by omega
        simp only [this, if_false]
        rw [List.getElem?_append_right (by omega)]
        simp only [List.getElem?_concat_length, Option.some.injEq] at hk
        subst hk
        simp [hlen]
      · have hklt : k < vs.length := by
          have := (List.getElem?_eq_some.mp hk).1
          simp at this; omega
        rw [List.getElem?_append_left hklt] at hk
        by_cases hk2 : k = vs.length - 1
        · subst hk2
          have hwu : w = u := by rw [hw] at hk; exact Option.some.inj hk
          subst hwu
          simp [hidx, hlen]
          omega
        · have : ¬ (b + vs.length - 1 = b + k) := by omega
          simp only [this, if_false]
          rw [List.getElem?_append_left (by omega), hcells k u hk]
          have h1 : k + 1 < vs.length := by omega
          have h2 : k + 1 < (vs ++ [v]).length := by simp; omega
          simp [h1, h2, hklt]

theorem Represents.pushAll {T : Type} (ws : List T) :
    ∀ {h : Heap T} {lst : GoList} {b : Nat} {vs : List T}, Represents h lst b vs →
    ∃ h1 lst1, GoList.pushAll ws (h, lst) = some (h1, lst1) ∧ Represents h1 lst1 b (vs ++ ws) := by
  induction ws with
  | nil =>
    intro h lst b vs hr
    exact ⟨h, lst, rfl, by simpa using hr⟩
  | cons w ws ih =>
    intro h lst b vs hr
    obtain ⟨h1, lst1, hp, hr1⟩ := hr.push w
    obtain ⟨h2, lst2, hq, hr2⟩ := ih hr1
    refine ⟨h2, lst2, ?_, by simpa using hr2⟩
    simp only [GoList.pushAll, hp]
    exact hq

theorem GoList.AllElements.loop_nil {T : Type} (h : Heap T) (fuel : Nat) (acc : Slice T) :
    GoList.AllElements.loop h fuel none acc = some acc := by
  cases fuel <;> rfl

theorem Represents.loop {T : Type} {h : Heap T} {lst : GoList} {b : Nat} {vs : List T}
    (hr : Represents h lst b vs) (n : Nat) :
    ∀ (k : Nat) (acc : Slice T) (fuel : Nat), k + n = vs.length → n ≤ fuel →
    GoList.AllElements.loop h fuel (if k < vs.length then some (b + k) else none) acc
      = some (if n = 0 then acc else Slice.mk (acc.toList ++ vs.drop k)) := by
  induction n with
  | zero =>
    intro k acc fuel hk _
    have : ¬ k < vs.length := by omega
    simp [this, GoList.AllElements.loop_nil]
  | succ n ih =>
    intro k acc fuel hk hfuel
    have hlt : k < vs.length := by omega
    obtain ⟨fuel1, rfl⟩ : ∃ m, fuel = m + 1 := ⟨fuel - 1, by omega⟩
    have hcell := hr.cells k vs[k] (List.getElem?_eq_getElem hlt)
    have hdrop : vs.drop k = vs[k] :: vs.drop (k + 1) := List.drop_eq_getElem_cons hlt
    simp only [hlt, if_true, GoList.AllElements.loop, Heap.load, hcell]
    have hih := ih (k + 1) (acc.append vs[k]) fuel1 (by omega) (by omega)
    rw [← Nat.add_assoc] at hih
    rw [hih]
    rw [hdrop]
    by_cases hn : n = 0
    · have hnil : vs.drop (k + 1) = [] := List.drop_eq_nil_of_le (by omega)
      rw [hnil]
      simp [hn, Slice.append]
    · generalize vs.drop (k + 1) = rest
      simp [hn, Slice.append, Slice.toList]

/-! ## Lemmas on the deferred calls of `main` -/

/-- One round of the loop of `main` at a value of the loop variable below
10: the call is deferred and the loop goes on with `i + 1`. -/
theorem main.loop_step (i : Int) (h0 : 0 ≤ i) (h : i < 10) (fr : Frame) :
    main.loop i fr =
      main.loop (i + 1)
        { fr with defers := Deferred.println [toString i] :: fr.defers } := by
  have hw : intAdd i 1 = i + 1 := by
    simp only [intAdd, wrapInt]; omega
  rw [main.loop]
  simp only [h, if_true, hw]
  rfl

theorem main.loop_exit (fr : Frame) :
    main.loop 10 fr = (.ok (), fr) := by
  rw [main.loop]
  rfl

theorem main.loop_run (fr : Frame) :
    main.loop 0 fr =
      (.ok (), { fr with defers :=
        ((List.range 10).reverse.map fun i : Nat => Deferred.println [toString (i : Int)])
          ++ fr.defers }) := by
  rw [main.loop_step 0 (by decide) (by decide), show (0 : Int) + 1 = 1 from rfl,
    main.loop_step 1 (by decide) (by decide), show (1 : Int) + 1 = 2 from rfl,
    main.loop_step 2 (by decide) (by decide), show (2 : Int) + 1 = 3 from rfl,
    main.loop_step 3 (by decide) (by decide), show (3 : Int) + 1 = 4 from rfl,
    main.loop_step 4 (by decide) (by decide), show (4 : Int) + 1 = 5 from rfl,
    main.loop_step 5 (by decide) (by decide), show (5 : Int) + 1 = 6 from rfl,
    main.loop_step 6 (by decide) (by decide), show (6 : Int) + 1 = 7 from rfl,
    main.loop_step 7 (by decide) (by decide), show (7 : Int) + 1 = 8 from rfl,
    main.loop_step 8 (by decide) (by decide), show (8 : Int) + 1 = 9 from rfl,
    main.loop_step 9 (by decide) (by decide), show (9 : Int) + 1 = 10 from rfl,
    main.loop_exit]
  rfl

/-- The sequencing of a `do` block is `Body.bind`. -/
theorem Body.bind_eq {α β : Type} (a : Body α) (g : α → Body β) :
    (a >>= g) = Body.bind a g := rfl

/-- The statements of `main` from the first `defer` on complete without a
panic, having written three lines and deferred eleven calls. -/
theorem main.body_run (fr : Frame) :
    main.body fr =
      (.ok (), { out := fr.out ++ [Println ["hello"]] ++ [Println ["counting"]]
                          ++ [Println ["done"]],
                 defers :=
                  ((List.range 10).reverse.map fun i : Nat =>
                      Deferred.println [toString (i : Int)])
                    ++ Deferred.println ["world"] :: fr.defers }) := by
  unfold main.body
  simp only [Body.bind_eq, Body.bind, Body.defer, Body.println, main.loop_run]

/-! ## Lemmas on `tryAtomicCounters` -/

theorem Worker.sum_map_set (f : Worker → Nat) (ws : List Worker) :
    ∀ (k : Nat) (g g1 : Worker), ws[k]? = some g →
      ((ws.set k g1).map f).sum + f g = (ws.map f).sum + f g1 := by
  induction ws with
  | nil => intro k g g1 h; simp at h
  | cons a ws ih =>
    intro k g g1 h
    cases k with
    | zero =>
      simp only [List.getElem?_cons_zero, Option.some.injEq] at h
      subst h
      simp only [List.set_cons_zero, List.map_cons, List.sum_cons]
      omega
    | succ k =>
      simp only [List.getElem?_cons_succ] at h
      have := ih k g g1 h
      simp only [List.set_cons_succ, List.map_cons, List.sum_cons]
      omega

theorem Worker.total_le (ws : List Worker) (h : ∀ g ∈ ws, g.iter ≤ 1000) :
    Worker.total ws ≤ ws.length * 1000 := by
  induction ws with
  | nil => simp [Worker.total]
  | cons a ws ih =>
    have h1 := h a (by simp)
    have h2 := ih (fun g hg => h g (by simp [hg]))
    simp only [Worker.total, List.map_cons, List.sum_cons, List.length_cons] at *
    omega

theorem Worker.total_of_live_zero (ws : List Worker)
    (h : ∀ g ∈ ws, g.exited = true → g.iter = 1000) (hl : Worker.live ws = 0) :
    Worker.total ws = ws.length * 1000 := by
  induction ws with
  | nil => simp [Worker.total]
  | cons a ws ih =>
    have h1 := h a (by simp)
    simp only [Worker.live, List.map_cons, List.sum_cons] at hl
    have ha : a.exited = true := by
      by_cases hx : a.exited = true
      · exact hx
      · simp [hx] at hl
    have h2 := ih (fun g hg => h g (by simp [hg])) (by simp only [Worker.live]; omega)
    have h3 := h1 ha
    simp only [Worker.total, List.map_cons, List.sum_cons, List.length_cons] at *
    omega

theorem Worker.exists_live (ws : List Worker) (hl : 0 < Worker.live ws) :
    ∃ (k : Nat) (g : Worker), ws[k]? = some g ∧ g.exited = false := by
  induction ws with
  | nil => simp [Worker.live] at hl
  | cons a ws ih =>
    by_cases hx : a.exited = true
    · simp only [Worker.live, List.map_cons, List.sum_cons, hx, if_true, Nat.zero_add] at hl
      obtain ⟨k, g, hk, hg⟩ := ih hl
      exact ⟨k + 1, g, by simpa using hk, hg⟩
    · exact ⟨0, a, by simp, by simpa using hx⟩

theorem Worker.total_append (ws : List Worker) :
    Worker.total (ws ++ [⟨0, false⟩]) = Worker.total ws := by
  simp [Worker.total]

theorem Worker.live_append (ws : List Worker) :
    Worker.live (ws ++ [⟨0, false⟩]) = Worker.live ws + 1 := by
  simp [Worker.live]

theorem tryAtomicCounters.inv_init : tryAtomicCounters.Inv tryAtomicCounters.init :=
  ⟨rfl, by simp [tryAtomicCounters.init], rfl, by simp [tryAtomicCounters.init],
   by simp [tryAtomicCounters.PcInv, tryAtomicCounters.init, Worker.live]⟩

theorem tryAtomicCounters.inv_stepMain {w : World} (hw : tryAtomicCounters.Inv w) :
    tryAtomicCounters.Inv (tryAtomicCounters.stepMain w) := by
  obtain ⟨hp, hr, hc, hm, hpc⟩ := hw
  unfold tryAtomicCounters.stepMain
  unfold tryAtomicCounters.PcInv at hpc
  cases hpcw : w.pc with
  | loop i =>
    rw [hpcw] at hpc
    obtain ⟨h1, h2, h3, h4⟩ := hpc
    by_cases hi : i < 50
    · simp only [hi, if_true]
      exact ⟨hp, hr, hc, hm, by simp [tryAtomicCounters.PcInv, hi, h2, h3, h4]⟩
    · simp only [hi, if_false]
      exact ⟨hp, hr, hc, hm, by simp [tryAtomicCounters.PcInv, h3, h4]; omega⟩
  | spawn i =>
    rw [hpcw] at hpc
    obtain ⟨h1, h2, h3, h4⟩ := hpc
    refine ⟨hp, ?_, ?_, ?_, ?_⟩
    · intro g hg
      simp only [List.mem_append, List.mem_singleton] at hg
      rcases hg with hg | rfl
      · exact hr g hg
      · simp
    · simp only [Worker.total_append]; exact hc
    · simp; omega
    · simp only [tryAtomicCounters.PcInv, Worker.live_append, List.length_append,
        List.length_singleton]
      refine ⟨by omega, by omega, ?_, h4⟩
      rw [h3]; push_cast; rfl
  | wait =>
    rw [hpcw] at hpc
    obtain ⟨h1, h2, h3⟩ := hpc
    by_cases h0 : w.wg = 0
    · simp only [h0, if_true]
      refine ⟨hp, hr, hc, hm, ?_⟩
      simp only [tryAtomicCounters.PcInv]
      refine ⟨h1, trivial, ?_, h3⟩
      rw [h0] at h2; exact_mod_cast h2.symm
    · simp only [h0, if_false]
      exact ⟨hp, hr, hc, hm, by simp [tryAtomicCounters.PcInv, hpcw, h1, h2, h3]⟩
  | load =>
    rw [hpcw] at hpc
    obtain ⟨h1, h2, h3, h4⟩ := hpc
    refine ⟨hp, hr, hc, hm, ?_⟩
    simp only [tryAtomicCounters.PcInv]
    refine ⟨h1, h2, h3, ?_⟩
    have := Worker.total_of_live_zero w.workers (fun g hg => (hr g hg).2) h3
    rw [hc, this, h1]
  | done =>
    exact ⟨hp, hr, hc, hm, by simpa [tryAtomicCounters.PcInv, hpcw] using hpc⟩

theorem tryAtomicCounters.pcInv_wg_pos {w : World} (h : tryAtomicCounters.PcInv w)
    (hl : 0 < Worker.live w.workers) : 1 ≤ w.wg := by
  unfold tryAtomicCounters.PcInv at h
  cases hpc : w.pc <;> rw [hpc] at h <;> simp only at h <;> omega

theorem tryAtomicCounters.pcInv_round {w w1 : World} (h : tryAtomicCounters.PcInv w)
    (hpc : w1.pc = w.pc) (hlen : w1.workers.length = w.workers.length)
    (hwg : w1.wg = w.wg) (hlive : Worker.live w1.workers = Worker.live w.workers)
    (hpr : w1.printed = w.printed) : tryAtomicCounters.PcInv w1 := by
  unfold tryAtomicCounters.PcInv at h ⊢
  rw [hpc, hlen, hwg, hlive, hpr]
  exact h

theorem tryAtomicCounters.pcInv_exit {w w1 : World} (h : tryAtomicCounters.PcInv w)
    (hpc : w1.pc = w.pc) (hlen : w1.workers.length = w.workers.length)
    (hwg : w1.wg = w.wg - 1) (hlive : Worker.live w1.workers + 1 = Worker.live w.workers)
    (hpr : w1.printed = w.printed) : tryAtomicCounters.PcInv w1 := by
  unfold tryAtomicCounters.PcInv at h ⊢
  rw [hpc, hlen, hwg, hpr]
  cases hq : w.pc with
  | loop i =>
    rw [hq] at h
    exact ⟨h.1, h.2.1, by have := h.2.2.1; omega, h.2.2.2⟩
  | spawn i =>
    rw [hq] at h
    exact ⟨h.1, h.2.1, by have := h.2.2.1; omega, h.2.2.2⟩
  | wait =>
    rw [hq] at h
    exact ⟨h.1, by have := h.2.1; omega, h.2.2⟩
  | load =>
    rw [hq] at h
    have := h.2.2.1
    omega
  | done =>
    rw [hq] at h
    have := h.2.2.1
    omega

theorem tryAtomicCounters.inv_stepWorker {w : World} (hw : tryAtomicCounters.Inv w) (k : Nat) :
    tryAtomicCounters.Inv (tryAtomicCounters.stepWorker k w) := by
  have hw0 := hw
  obtain ⟨hp, hr, hc, hm, hpc⟩ := hw
  unfold tryAtomicCounters.stepWorker
  cases hk : w.workers[k]? with
  | none => exact hw0
  | some g =>
    simp only
    have hgmem : g ∈ w.workers := List.mem_iff_getElem?.mpr ⟨k, hk⟩
    by_cases hx : g.exited = true
    · simp only [hx, if_true]; exact hw0
    · have hxf : g.exited = false := by simpa using hx
      simp only [hxf, Bool.false_eq_true, if_false]
      have hlive : 0 < Worker.live w.workers := by
        have := Worker.sum_map_set (fun g => if g.exited then 0 else 1) w.workers k g
          ⟨g.iter, true⟩ hk
        simp only [hxf] at this
        simp only [Worker.live]
        simp at this
        omega
      by_cases hi : g.iter < 1000
      · simp only [hi, if_true]
        have htot := Worker.sum_map_set Worker.iter w.workers k g ⟨g.iter + 1, false⟩ hk
        have hlv := Worker.sum_map_set (fun g => if g.exited then 0 else 1) w.workers k g
          ⟨g.iter + 1, false⟩ hk
        simp only [hxf, Bool.false_eq_true, if_false] at htot hlv
        have hbound := Worker.total_le w.workers (fun g hg => (hr g hg).1)
        refine ⟨hp, ?_, ?_, by simpa using hm, ?_⟩
        · intro g1 hg1
          rcases List.mem_or_eq_of_mem_set hg1 with h1 | rfl
          · exact hr g1 h1
          · simp [hxf]; omega
        · simp only [Worker.total, uint64Add] at *
          omega
        · exact tryAtomicCounters.pcInv_round hpc rfl (by simp) rfl
            (by simp only [Worker.live]; omega) rfl
      · simp only [hi, if_false]
        have hwg := tryAtomicCounters.pcInv_wg_pos hpc hlive
        have hneg : ¬ (w.wg - 1 < 0) := by omega
        simp only [hneg, if_false]
        have htot := Worker.sum_map_set Worker.iter w.workers k g ⟨g.iter, true⟩ hk
        have hlv := Worker.sum_map_set (fun g => if g.exited then 0 else 1) w.workers k g
          ⟨g.iter, true⟩ hk
        simp only [hxf, Bool.false_eq_true, if_false, if_true] at htot hlv
        have hg := hr g hgmem
        refine ⟨hp, ?_, ?_, by simpa using hm, ?_⟩
        · intro g1 hg1
          rcases List.mem_or_eq_of_mem_set hg1 with h1 | rfl
          · exact hr g1 h1
          · simp; omega
        · simp only [Worker.total] at *
          omega
        · exact tryAtomicCounters.pcInv_exit hpc rfl (by simp) rfl
            (by simp only [Worker.live]; omega) rfl

theorem tryAtomicCounters.inv_step {w : World} (hw : tryAtomicCounters.Inv w) (tid : Nat) :
    tryAtomicCounters.Inv (tryAtomicCounters.step tid w) := by
  unfold tryAtomicCounters.step
  simp only [hw.noPanic, Bool.false_eq_true, if_false]
  cases tid with
  | zero => exact tryAtomicCounters.inv_stepMain hw
  | succ k => exact tryAtomicCounters.inv_stepWorker hw k

theorem tryAtomicCounters.inv_run (sched : List Nat) :
    ∀ {w : World}, tryAtomicCounters.Inv w →
      tryAtomicCounters.Inv (tryAtomicCounters.run sched w) := by
  induction sched with
  | nil => intro w hw; exact hw
  | cons t sched ih =>
    intro w hw
    exact ih (tryAtomicCounters.inv_step hw t)

theorem Worker.live_zero_exited (ws : List Worker) (hl : Worker.live ws = 0) :
    ∀ g ∈ ws, g.exited = true := by
  induction ws with
  | nil => simp
  | cons a ws ih =>
    simp only [Worker.live, List.map_cons, List.sum_cons] at hl
    intro g hg
    simp only [List.mem_cons] at hg
    rcases hg with rfl | hg
    · by_cases hx : g.exited = true
      · exact hx
      · simp [hx] at hl
    · exact ih (by simp only [Worker.live]; omega) g hg

theorem tryAtomicCounters.progress {w : World} (hw : tryAtomicCounters.Inv w)
    (hpc : w.pc ≠ .done) :
    ∃ tid, tryAtomicCounters.remaining (tryAtomicCounters.step tid w)
      < tryAtomicCounters.remaining w := by
  obtain ⟨hp, hr, hc, hm, hinv⟩ := hw
  have hmain : tryAtomicCounters.step 0 w = tryAtomicCounters.stepMain w := by
    simp [tryAtomicCounters.step, hp]
  unfold tryAtomicCounters.PcInv at hinv
  cases hq : w.pc with
  | loop i =>
    rw [hq] at hinv
    refine ⟨0, ?_⟩
    rw [hmain]
    by_cases hi : i < 50
    · simp only [tryAtomicCounters.stepMain, hq, hi, if_true, tryAtomicCounters.remaining,
        tryAtomicCounters.mainRemaining]
      omega
    · simp only [tryAtomicCounters.stepMain, hq, hi, if_false, tryAtomicCounters.remaining,
        tryAtomicCounters.mainRemaining]
      omega
  | spawn i =>
    rw [hq] at hinv
    refine ⟨0, ?_⟩
    rw [hmain]
    simp only [tryAtomicCounters.stepMain, hq, tryAtomicCounters.remaining,
      tryAtomicCounters.mainRemaining, List.map_append, List.sum_append, List.map_cons,
      List.map_nil, List.sum_cons, List.sum_nil, Worker.remaining]
    have := hinv.1
    simp
    omega
  | wait =>
    rw [hq] at hinv
    by_cases h0 : w.wg = 0
    · refine ⟨0, ?_⟩
      rw [hmain]
      simp only [tryAtomicCounters.stepMain, hq, h0, if_true, tryAtomicCounters.remaining,
        tryAtomicCounters.mainRemaining]
      omega
    · have hlive : 0 < Worker.live w.workers := by
        have := hinv.2.1
        omega
      obtain ⟨k, g, hk, hx⟩ := Worker.exists_live w.workers hlive
      refine ⟨k + 1, ?_⟩
      have hwork : tryAtomicCounters.step (k + 1) w = tryAtomicCounters.stepWorker k w := by
        simp [tryAtomicCounters.step, hp]
      rw [hwork]
      have hgi := (hr g (List.mem_iff_getElem?.mpr ⟨k, hk⟩)).1
      by_cases hi : g.iter < 1000
      · have hs := Worker.sum_map_set Worker.remaining w.workers k g ⟨g.iter + 1, false⟩ hk
        simp only [Worker.remaining, hx, Bool.false_eq_true, if_false] at hs
        simp only [tryAtomicCounters.stepWorker, hk, hx, hi, Bool.false_eq_true, if_false,
          if_true, tryAtomicCounters.remaining]
        omega
      · have hs := Worker.sum_map_set Worker.remaining w.workers k g ⟨g.iter, true⟩ hk
        simp only [Worker.remaining, hx, Bool.false_eq_true, if_false, if_true] at hs
        have hneg : ¬ (w.wg - 1 < 0) := by
          have := hinv.2.1
          omega
        simp only [tryAtomicCounters.stepWorker, hk, hx, hi, hneg, Bool.false_eq_true,
          if_false, tryAtomicCounters.remaining]
        omega
  | load =>
    refine ⟨0, ?_⟩
    rw [hmain]
    simp only [tryAtomicCounters.stepMain, hq, tryAtomicCounters.remaining,
      tryAtomicCounters.mainRemaining]
    omega
  | done => exact absurd hq hpc

theorem tryAtomicCounters.completes (n : Nat) :
    ∀ {w : World}, tryAtomicCounters.Inv w → tryAtomicCounters.remaining w ≤ n →
      ∃ sched, (tryAtomicCounters.run sched w).pc = .done := by
  induction n with
  | zero =>
    intro w hw hn
    by_cases hpc : w.pc = .done
    · exact ⟨[], hpc⟩
    · obtain ⟨tid, ht⟩ := tryAtomicCounters.progress hw hpc
      omega
  | succ n ih =>
    intro w hw hn
    by_cases hpc : w.pc = .done
    · exact ⟨[], hpc⟩
    · obtain ⟨tid, ht⟩ := tryAtomicCounters.progress hw hpc
      obtain ⟨sched, hs⟩ := ih (tryAtomicCounters.inv_step hw tid) (by omega)
      exact ⟨tid :: sched, hs⟩

theorem tryAtomicCounters.run_append (s1 s2 : List Nat) (w : World) :
    tryAtomicCounters.run (s1 ++ s2) w
      = tryAtomicCounters.run s2 (tryAtomicCounters.run s1 w) := by
  simp [tryAtomicCounters.run, List.foldl_append]

/-! ## Theorems -/

/-- C1: for every slice `s` and every value `x` of a comparable type,
`Index(s, x)` returns `-1` if and only if `x` does not occur in `s`, that is
no element `v` of `s` has `v == x`; otherwise it returns an `i` with
`0 <= i < len(s)` and `s[i] == x`. -/
theorem Index_spec {α : Type} [BEq α] (s : List α) (x : α) :
    (Index s x = -1 ↔ ∀ v ∈ s, (v == x) = false) ∧
    (Index s x ≠ -1 →
      ∃ (i : Nat) (v : α), Index s x = (i : Int) ∧ 0 ≤ Index s x ∧ i < s.length ∧
        s[i]? = some v ∧ (v == x) = true) := by
  unfold Index
  rcases Index.loop_cases x s 0 with ⟨h1, h2⟩ | ⟨j, v, h1, h2, h3, h4, _⟩
  · exact ⟨⟨fun _ => h2, fun _ => h1⟩, fun h => absurd h1 h⟩
  · have hmem : v ∈ s := List.mem_iff_getElem?.mpr ⟨j, h3⟩
    have hne : Index.loop x s 0 ≠ -1 := by rw [h1]; omega
    refine ⟨⟨fun h => absurd h hne, fun h => ?_⟩, fun _ => ?_⟩
    · have := h v hmem
      rw [h4] at this
      exact absurd this (by decide)
    · refine ⟨j, v, ?_, ?_, h2, h3, h4⟩
      · rw [h1]; congr 1; omega
      · rw [h1]; omega

/-- C1 at the two calls of `main`: `Index([10,20,15,-10], 15) = 2` and
`Index(["foo","bar","baz"], "hello") = -1`. -/
theorem Index_spec_witness :
    (Index [(10 : Int), 20, 15, -10] 15 = 2 ∧
      ∃ (i : Nat) (v : Int), Index [(10 : Int), 20, 15, -10] 15 = (i : Int) ∧
        0 ≤ Index [(10 : Int), 20, 15, -10] 15 ∧
        i < [(10 : Int), 20, 15, -10].length ∧ [(10 : Int), 20, 15, -10][i]? = some v ∧
        (v == 15) = true) ∧
    (Index ["foo", "bar", "baz"] "hello" = -1 ∧
      ∀ v ∈ ["foo", "bar", "baz"], (v == "hello") = false) :=
  ⟨⟨by decide, (Index_spec [(10 : Int), 20, 15, -10] 15).2 (by decide)⟩,
   ⟨by decide, (Index_spec ["foo", "bar", "baz"] "hello").1.mp (by decide)⟩⟩

/-- C2: `transition` is total over the enum domain: on each of the four
declared states it returns without panicking, and the state it returns is
again one of the four declared states. -/
theorem transition_total (s : ServerState) (hs : s ∈ declaredStates) :
    ∃ t : ServerState, transition s = .ok t ∧ t ∈ declaredStates := by
  simp only [declaredStates, List.mem_cons, List.mem_singleton, List.not_mem_nil,
    or_false] at hs
  rcases hs with rfl | rfl | rfl | rfl
  · exact ⟨StateConnected, rfl, by decide⟩
  · exact ⟨StateIdle, rfl, by decide⟩
  · exact ⟨StateError, rfl, by decide⟩
  · exact ⟨StateIdle, rfl, by decide⟩

/-- C2 at `StateRetrying`. -/
theorem transition_total_witness :
    StateRetrying ∈ declaredStates ∧
    ∃ t : ServerState, transition StateRetrying = .ok t ∧ t ∈ declaredStates :=
  ⟨by decide, transition_total StateRetrying (by decide)⟩

/-- C3: `transition` is idempotent on the error state:
`transition(StateError) = StateError`, applying it twice equals applying it
once, and any number of repeated applications from `StateError` stays at
`StateError`. -/
theorem transition_error_idempotent :
    transition StateError = .ok StateError ∧
    (transition StateError >>= transition) = transition StateError ∧
    ∀ n : Nat, transitionIter n StateError = .ok StateError := by
  have h1 : transition StateError = .ok StateError := rfl
  refine ⟨h1, rfl, ?_⟩
  intro n
  induction n with
  | zero => rfl
  | succ n ih =>
    show (transition StateError >>= transitionIter n) = _
    rw [h1]
    exact ih

/-- C4: `ServerState.String` covers the whole enum: it returns `"idle"`,
`"connected"`, `"error"` and `"retrying"` for the four declared states, so
every declared state has a non-empty name and distinct declared states have
distinct names. -/
theorem String_covers_enum :
    ServerState.String StateIdle = "idle" ∧
    ServerState.String StateConnected = "connected" ∧
    ServerState.String StateError = "error" ∧
    ServerState.String StateRetrying = "retrying" ∧
    (∀ s ∈ declaredStates, ServerState.String s ≠ "") ∧
    (∀ s ∈ declaredStates, ∀ t ∈ declaredStates,
      s ≠ t → ServerState.String s ≠ ServerState.String t) := by
  refine ⟨by decide, by decide, by decide, by decide, by decide, by decide⟩

/-- C4 at the pair `StateIdle`, `StateRetrying`. -/
theorem String_covers_enum_witness :
    StateIdle ∈ declaredStates ∧ StateRetrying ∈ declaredStates ∧
    StateIdle ≠ StateRetrying ∧
    ServerState.String StateIdle ≠ "" ∧
    ServerState.String StateIdle ≠ ServerState.String StateRetrying :=
  ⟨by decide, by decide, by decide,
   String_covers_enum.2.2.2.2.1 StateIdle (by decide),
   String_covers_enum.2.2.2.2.2 StateIdle (by decide) StateRetrying (by decide) (by decide)⟩

/-- C5: `f(arg)` returns the custom error if and only if `arg == 42`:
`f(42) = (-1, &argError{42, "can't work with it"})`, whose `Error()` text is
`"42 - can't work with it"`, and for every `arg != 42`,
`f(arg) = (arg + 3, nil)` with Go's `+` on `int`, which is the exact sum
whenever `arg + 3` does not exceed the largest `int`. -/
theorem f_spec (arg : Int) :
    ((f arg).2 ≠ none ↔ arg = 42) ∧
    f 42 = (-1, some ⟨42, "can't work with it"⟩) ∧
    argError.Error ⟨42, "can't work with it"⟩ = "42 - can't work with it" ∧
    (arg ≠ 42 → f arg = (intAdd arg 3, none)) ∧
    (arg ≠ 42 → minInt ≤ arg → arg + 3 ≤ maxInt → f arg = (arg + 3, none)) := by
  refine ⟨?_, by decide, by decide, ?_, ?_⟩
  · by_cases h : arg = 42 <;> simp [f, h]
  · intro h; simp [f, h]
  · intro h hlo hhi
    simp only [f, h, if_false, intAdd, wrapInt, minInt, maxInt] at *
    congr 1
    omega

/-- C5 at `arg = 7`, where `f(7) = (10, nil)`, next to the error case
`f(42)`. -/
theorem f_spec_witness :
    (7 : Int) ≠ 42 ∧ minInt ≤ 7 ∧ (7 : Int) + 3 ≤ maxInt ∧
    f 7 = (10, none) ∧ f 7 = (intAdd 7 3, none) ∧ (f 42).2 ≠ none :=
  ⟨by decide, by decide, by decide,
   (f_spec 7).2.2.2.2 (by decide) (by decide) (by decide),
   (f_spec 7).2.2.2.1 (by decide),
   (f_spec 42).1.mpr rfl⟩

/-- C6: pushing `v1..vn` with `Push` onto an initially empty list and then
calling `AllElements` returns exactly `[v1, ..., vn]` in insertion order; on
the empty list `AllElements` returns the `nil` slice. The traversal needs no
more than `n` iterations. -/
theorem Push_AllElements {T : Type} (h0 : Heap T) (vs : List T) (fuel : Nat)
    (hfuel : vs.length ≤ fuel) :
    ∃ h lst, GoList.pushAll vs (h0, GoList.empty) = some (h, lst) ∧
      ∃ sl, GoList.AllElements fuel lst h = some sl ∧ sl.toList = vs ∧
        (vs = [] → sl = Slice.nil) := by
  obtain ⟨h, lst, hp, hr⟩ := Represents.pushAll vs (Represents.empty h0)
  simp only [List.nil_append] at hr
  refine ⟨h, lst, hp, ?_⟩
  have hl := hr.loop vs.length 0 Slice.nil fuel (by omega) hfuel
  have hhead : lst.head = if 0 < vs.length then some (h0.length + 0) else none := by
    rw [hr.head]
    by_cases h0 : vs.length = 0
    · simp [h0]
    · have : 0 < vs.length := Nat.pos_of_ne_zero h0
      simp [h0, this]
  refine ⟨if vs.length = 0 then Slice.nil else Slice.mk (Slice.nil.toList ++ List.drop 0 vs),
    ?_, ?_, ?_⟩
  · unfold GoList.AllElements
    rw [hhead]
    exact hl
  · by_cases h0 : vs.length = 0
    · have := List.length_eq_zero.mp h0
      simp [this, Slice.toList]
    · simp [h0, Slice.toList]
  · intro hnil
    simp [hnil]

/-- C6 at the three pushes of `tryGenerics`: pushing 10, 13, 23 yields
`[10 13 23]`. -/
theorem Push_AllElements_witness :
    [(10 : Int), 13, 23].length ≤ 3 ∧
    (∃ h lst, GoList.pushAll [(10 : Int), 13, 23] ([], GoList.empty) = some (h, lst) ∧
      ∃ sl, GoList.AllElements 3 lst h = some sl ∧ sl.toList = [10, 13, 23] ∧
        ([(10 : Int), 13, 23] = [] → sl = Slice.nil)) ∧
    (GoList.pushAll [(10 : Int), 13, 23] ([], GoList.empty)).bind
      (fun st => GoList.AllElements 3 st.2 st.1) = some (Slice.mk [10, 13, 23]) :=
  ⟨by decide, Push_AllElements [] [(10 : Int), 13, 23] 3 (by decide), by decide⟩

/-- C7: with panic as an error result, `tryRecover` always returns normally
although `mayPanic` panics with `"a problem"`; its body stops at the call of
`mayPanic`, the deferred closure runs with that panic in progress, recovers
the value `"a problem"` and prints the `Recovered` line, and the line
`After mayPanic()` is not printed. -/
theorem tryRecover_recovers (pre : Output) :
    tryRecover pre = (.ok (), pre ++ ["Recovered. Error:\n a problem\n"]) ∧
    mayPanic pre = (.error "a problem", pre) ∧
    tryRecover.body ⟨pre, []⟩ = (.error "a problem", ⟨pre, [tryRecover.deferred]⟩) ∧
    tryRecover.deferred ⟨pre, some "a problem"⟩
      = ⟨pre ++ [Println ["Recovered. Error:\n", "a problem"]], none⟩ ∧
    Println ["After mayPanic()"] ∉ [Println ["Recovered. Error:\n", "a problem"]] := by
  refine ⟨rfl, rfl, rfl, rfl, by decide⟩

/-- C8: deferred calls run in last-in-first-out order after the body of
`main` has returned: after `hello`, `counting` and `done` the output is the
deferred loop values 9, 8, ..., 0 and, last, `world`, the first deferred
call. -/
theorem main_defer_order (pre : Output) :
    main pre = (.ok (), pre ++ [Println ["hello"], Println ["counting"], Println ["done"]]
      ++ ((List.range 10).reverse.map fun i : Nat => Println [toString i])
      ++ [Println ["world"]]) ∧
    [Println ["hello"], Println ["counting"], Println ["done"]]
      ++ ((List.range 10).reverse.map fun i : Nat => Println [toString i])
      ++ [Println ["world"]]
      = ["hello\n", "counting\n", "done\n", "9\n", "8\n", "7\n", "6\n", "5\n", "4\n",
         "3\n", "2\n", "1\n", "0\n", "world\n"] := by
  refine ⟨?_, by decide⟩
  unfold main call
  rw [main.body_run]
  simp [Deferred.println, List.range, List.range.loop]
  decide

/-- C9: the naked return of `split` returns the named results: when
`sum*4` does not overflow, `split(sum) = (x, y)` with `x = sum*4/9` under
truncating division and `y = sum - x`, so that `x + y = sum`. -/
theorem split_spec (sum : Int) (hlo : minInt ≤ sum * 4) (hhi : sum * 4 ≤ maxInt) :
    split sum = (Int.tdiv (sum * 4) 9, sum - Int.tdiv (sum * 4) 9) ∧
    (split sum).1 + (split sum).2 = sum := by
  have hq : Int.tdiv (sum * 4) 9 = (sum * 4) / 9 ∨ Int.tdiv (sum * 4) 9 = -((-(sum * 4)) / 9) := by
    rcases Int.le_total 0 (sum * 4) with h | h
    · left; exact Int.tdiv_eq_ediv h (by decide)
    · right
      have h2 : Int.tdiv (-(sum * 4)) 9 = (-(sum * 4)) / 9 :=
        Int.tdiv_eq_ediv (by omega) (by decide)
      rw [← h2, Int.neg_tdiv, neg_neg]
  have hx : split sum = (Int.tdiv (sum * 4) 9, sum - Int.tdiv (sum * 4) 9) := by
    simp only [split, intDiv, intMul, intSub, wrapInt, minInt, maxInt] at *
    have e1 : (sum * 4 + 9223372036854775808) % 18446744073709551616 - 9223372036854775808
        = sum * 4 := by omega
    rw [e1]
    generalize Int.tdiv (sum * 4) 9 = q at hq ⊢
    have e2 : (q + 9223372036854775808) % 18446744073709551616 - 9223372036854775808 = q := by
      omega
    rw [e2]
    have e3 : (sum - q + 9223372036854775808) % 18446744073709551616 - 9223372036854775808
        = sum - q := by omega
    rw [e3]
  refine ⟨hx, ?_⟩
  rw [hx]
  simp

/-- C9 at the call of `main`: `split(17) = (7, 10)`. -/
theorem split_spec_witness :
    minInt ≤ (17 : Int) * 4 ∧ (17 : Int) * 4 ≤ maxInt ∧ split 17 = (7, 10) ∧
    (split 17).1 + (split 17).2 = 17 :=
  ⟨by decide, by decide, (split_spec 17 (by decide) (by decide)).1,
   (split_spec 17 (by decide) (by decide)).2⟩

/-- C10: in `tryAtomicCounters` under every interleaving `sched` of the
function and its goroutines nothing panics, and whenever the value of
`ops.Load()` has been printed it is exactly 50000, the wait group is back at
zero, and 50 goroutines have been started, each having incremented the
counter exactly 1000 times and returned; and every interleaving can be
continued to one in which 50000 is printed. -/
theorem tryAtomicCounters_load (sched : List Nat) :
    (tryAtomicCounters sched).panicked = false ∧
    ((tryAtomicCounters sched).printed = none ∨
      ((tryAtomicCounters sched).printed = some 50000 ∧
        (tryAtomicCounters sched).ops = 50000 ∧
        (tryAtomicCounters sched).wg = 0 ∧
        (tryAtomicCounters sched).workers.length = 50 ∧
        ∀ g ∈ (tryAtomicCounters sched).workers, g.iter = 1000 ∧ g.exited = true)) ∧
    ∃ rest, (tryAtomicCounters (sched ++ rest)).printed = some 50000 := by
  have hinv : tryAtomicCounters.Inv (tryAtomicCounters sched) :=
    tryAtomicCounters.inv_run sched tryAtomicCounters.inv_init
  refine ⟨hinv.noPanic, ?_, ?_⟩
  · have hpc := hinv.atPc
    unfold tryAtomicCounters.PcInv at hpc
    cases hq : (tryAtomicCounters sched).pc with
    | loop i => rw [hq] at hpc; exact Or.inl hpc.2.2.2
    | spawn i => rw [hq] at hpc; exact Or.inl hpc.2.2.2
    | wait => rw [hq] at hpc; exact Or.inl hpc.2.2
    | load => rw [hq] at hpc; exact Or.inl hpc.2.2.2
    | done =>
      rw [hq] at hpc
      obtain ⟨h1, h2, h3, h4⟩ := hpc
      have hex := Worker.live_zero_exited _ h3
      have htot := Worker.total_of_live_zero _ (fun g hg => (hinv.rounds g hg).2) h3
      refine Or.inr ⟨h4, ?_, h2, h1, fun g hg => ⟨(hinv.rounds g hg).2 (hex g hg), hex g hg⟩⟩
      rw [hinv.count, htot, h1]
  · obtain ⟨rest, hrest⟩ := tryAtomicCounters.completes _ hinv (Nat.le_refl _)
    refine ⟨rest, ?_⟩
    have hinv2 : tryAtomicCounters.Inv (tryAtomicCounters (sched ++ rest)) :=
      tryAtomicCounters.inv_run _ tryAtomicCounters.inv_init
    have hpc := hinv2.atPc
    unfold tryAtomicCounters.PcInv at hpc
    have hq : (tryAtomicCounters (sched ++ rest)).pc = .done := by
      unfold tryAtomicCounters
      rw [tryAtomicCounters.run_append]
      exact hrest
    rw [hq] at hpc
    exact hpc.2.2.2

/-- C11: what the code does at the assignment `a = v3` of `main` in
`4-methods.go`. `Abs` is declared with the value receiver `(v Vertex)`, so
the method set of `Vertex` holds `Abs` and a plain `Vertex` value does
implement `Abser`, as `*Vertex` and `MyFloat` do, against the comment above
the assignment. A method declared with a pointer receiver is not in the
method set of the value type: `MyError` does not implement `error`, and
`Vertex` would not implement `Abser` had `Abs` been declared on `*Vertex`. -/
theorem Vertex_implements_Abser :
    implements methodDecls (.named "Vertex") Abser = true ∧
    ⟨"Abs", "() float64"⟩ ∈ methodSet methodDecls (.named "Vertex") ∧
    implements methodDecls (.ptr "Vertex") Abser = true ∧
    implements methodDecls (.named "MyFloat") Abser = true ∧
    implements methodDecls (.named "MyError") errorInterface = false ∧
    implements methodDecls (.ptr "MyError") errorInterface = true ∧
    implements [⟨"Vertex", .pointer, ⟨"Abs", "() float64"⟩⟩] (.named "Vertex") Abser = false := by
  refine ⟨by decide, by decide, by decide, by decide, by decide, by decide, by decide⟩

/-- C12: the index returned by `Index` is that of the first occurrence: for
every `s` and `x` with `x` in `s`, that is some element `v` of `s` has
`v == x`, `Index(s, x) = i` implies that `i` is a position of `s` with
`s[i] == x` and that `s[j] != x` for every `j < i`. -/
theorem Index_first {α : Type} [BEq α] (s : List α) (x : α)
    (hx : ∃ v ∈ s, (v == x) = true) (i : Int) (hi : Index s x = i) :
    0 ≤ i ∧ i < (s.length : Int) ∧
    (∃ v : α, s[i.toNat]? = some v ∧ (v == x) = true) ∧
    ∀ j : Nat, (j : Int) < i → ∃ u : α, s[j]? = some u ∧ (u == x) = false := by
  unfold Index at hi
  rcases Index.loop_cases x s 0 with ⟨_, h2⟩ | ⟨k, v, h1, h2, h3, h4, h5⟩
  · obtain ⟨v, hv, hvx⟩ := hx
    rw [h2 v hv] at hvx
    exact absurd hvx (by decide)
  · have hik : i = (k : Int) := by
      rw [← hi, h1]; congr 1; omega
    subst hik
    refine ⟨by omega, by omega, ⟨v, by simpa using h3, h4⟩, ?_⟩
    intro j hj
    have hjk : j < k := by omega
    have hjs : j < s.length := by omega
    exact ⟨s[j], List.getElem?_eq_getElem hjs, h5 j s[j] hjk (List.getElem?_eq_getElem hjs)⟩

/-- C12 at a slice with two occurrences: `Index([20,15,30,15], 15) = 1`,
position 1 holds 15 and position 0 does not. -/
theorem Index_first_witness :
    (∃ v ∈ [(20 : Int), 15, 30, 15], (v == 15) = true) ∧
    Index [(20 : Int), 15, 30, 15] 15 = 1 ∧
    ((0 : Int) ≤ 1 ∧ (1 : Int) < ([(20 : Int), 15, 30, 15].length : Int) ∧
      (∃ v : Int, [(20 : Int), 15, 30, 15][(1 : Int).toNat]? = some v ∧ (v == 15) = true) ∧
      ∀ j : Nat, (j : Int) < 1 →
        ∃ u : Int, [(20 : Int), 15, 30, 15][j]? = some u ∧ (u == 15) = false) :=
  ⟨⟨15, by decide, by decide⟩, by decide,
   Index_first [(20 : Int), 15, 30, 15] 15 ⟨15, by decide, by decide⟩ 1 (by decide)⟩

end GoStudies
